import Mathlib

/-!
Shallow embedding of the reusable utilities from the `rust_reference`
repository and proofs of the specification's claims about them:

* `largest_i32`, `largest_char` (`src/generic_types/src/lib.rs`,
  module `concrete_types`) and the generic extremum finder `largest`
  (module `generic_types::in_function_definitions`);
* `longest` (`src/lifetime/src/lib.rs`,
  module `lifetime_annotation_in_function_signature`);
* the word- and character-frequency loops of
  `update_hash_map::entry_for_counting`
  (`src/type_system/types/collection/hash_map/src/lib.rs`).

Rust slices are modelled as `List`, `&str` values as `String`,
`i32` as `Int` (only comparisons are used, so no wraparound arises),
`char` as `Char` (a Unicode scalar value in both languages), and
`HashMap<K, u32>` as an association list `List (K × Nat)` with unique
keys, which is what the map content is up to iteration order.
A Rust panic (the out-of-bounds index `&list[0]` on an empty slice)
is modelled by returning `none`.
-/

namespace RustRef

/-- Embedding of `concrete_types::largest_i32`:
`let mut largest = &list[0]; for i in list { if largest < i { largest = i } } largest`.
The indexing `&list[0]` panics on an empty slice, modelled by `none`. -/
def largest_i32 (list : List Int) : Option Int :=
  match list with
  | [] => none
  | x :: _ => some (list.foldl (fun largest i => if largest < i then i else largest) x)

/-- Embedding of `concrete_types::largest_char`, same loop at `char`. -/
def largest_char (list : List Char) : Option Char :=
  match list with
  | [] => none
  | x :: _ => some (list.foldl (fun largest i => if largest < i then i else largest) x)

/-- Embedding of the generic `generic_types::in_function_definitions::largest<T: PartialOrd>`.
The claims instantiate it at `i32` and `char`, whose `PartialOrd` is a total
order, so the embedding takes a `LinearOrder`. -/
def largest {α : Type} [LinearOrder α] (list : List α) : Option α :=
  match list with
  | [] => none
  | x :: _ => some (list.foldl (fun largest i => if largest < i then i else largest) x)

/-- Reference-level embedding of the same loop: a Rust `&T` into the slice is
the pair (index, value), so the scan carries the position of the current
maximum. `largestEntryGo cur j xs` is the loop state when the elements still
to visit are `xs`, starting at position `j`, and `cur` is the reference held
in `largest`. -/
def largestEntryGo {α : Type} [LinearOrder α] (cur : Nat × α) (j : Nat) :
    List α → Nat × α
  | [] => cur
  | x :: xs => largestEntryGo (if cur.2 < x then (j, x) else cur) (j + 1) xs

/-- The generic `largest` seen at the reference level: which position of the
slice the returned `&T` points to, together with the value there. -/
def largestEntry {α : Type} [LinearOrder α] (list : List α) : Option (Nat × α) :=
  match list with
  | [] => none
  | x :: _ => some (largestEntryGo (0, x) 0 list)

/-- The maximum of a sequence as computed by a reference sort: sort with
insertion sort and take the last element (`none` on the empty list).
This definition follows the specification's words, to be compared with
`largest`. -/
def referenceSortMax {α : Type} [LinearOrder α] (l : List α) : Option α :=
  (l.insertionSort (· ≤ ·)).getLast?

/-- Number of bytes of the UTF-8 encoding of a scalar value, as in Rust. -/
def charUtf8Size (c : Char) : Nat :=
  if c.val ≤ 0x7F then 1 else if c.val ≤ 0x7FF then 2 else if c.val ≤ 0xFFFF then 3 else 4

/-- Rust `str::len`: the length of a string in bytes of its UTF-8 encoding,
not in characters. -/
def strLen (s : String) : Nat :=
  (s.data.map charUtf8Size).sum

/-- Embedding of `lifetime_annotation_in_function_signature::longest`:
`if x.len() > y.len() { x } else { y }`. -/
def longest (x y : String) : String :=
  if strLen x > strLen y then x else y

/-- Rust `str::split_whitespace`: split on whitespace characters and discard
empty tokens (so leading, trailing and repeated whitespace produce no empty
tokens). `Char.isWhitespace` plays the role of Rust `char::is_whitespace`;
the two agree on ASCII text. -/
def split_whitespace (text : String) : List String :=
  ((text.data.splitOnP fun c => c.isWhitespace).filter fun w => !w.isEmpty).map
    fun w => String.mk w

/-- Embedding of one `*map.entry(key).or_insert(0) += 1` step on the map:
look the key up; on first occurrence insert it with count 1 (insert 0, then
increment in place), otherwise increment the stored count in place. The
second loop of `entry_for_counting` does the same step spelled
`entry(ch).and_modify(|c| *c += 1).or_insert(1)`. -/
def bump {κ : Type} [DecidableEq κ] (map : List (κ × Nat)) (key : κ) : List (κ × Nat) :=
  match map with
  | [] => [(key, 1)]
  | (k, v) :: rest => if k = key then (k, v + 1) :: rest else (k, v) :: bump rest key

/-- The word-counting loop of `update_hash_map::entry_for_counting`:
`for word in text.split_whitespace() { *map.entry(word).or_insert(0) += 1 }`
starting from an empty map. -/
def word_frequencies (text : String) : List (String × Nat) :=
  (split_whitespace text).foldl bump []

/-- The character-counting loop of `update_hash_map::entry_for_counting`:
`for ch in text.chars() { map.entry(ch).and_modify(|c| *c += 1).or_insert(1) }`
starting from an empty map. -/
def char_frequencies (text : String) : List (Char × Nat) :=
  text.data.foldl bump []

/-- Sum of all counts stored in a frequency map. -/
def countsSum {κ : Type} (map : List (κ × Nat)) : Nat :=
  (map.map Prod.snd).sum

/-- The value carried by the reference-level scan is exactly the value
computed by the value-level fold of `largest`. -/
theorem largestEntryGo_snd {α : Type} [LinearOrder α] :
    ∀ (xs : List α) (j : Nat) (cur : Nat × α),
      (largestEntryGo cur j xs).2 =
        xs.foldl (fun largest i => if largest < i then i else largest) cur.2 := by
  intro xs
  induction xs with
  | nil => intro j cur; rfl
  | cons x t ih =>
    intro j cur
    simp only [largestEntryGo, List.foldl_cons]
    rw [ih]
    by_cases h : cur.2 < x <;> simp [h]

/-- `largest` is the second projection of `largestEntry`. -/
theorem largest_eq_largestEntry_map {α : Type} [LinearOrder α] (l : List α) :
    largest l = (largestEntry l).map Prod.snd := by
  cases l with
  | nil => rfl
  | cons x xs => simp [largest, largestEntry, largestEntryGo_snd]

/-- Loop invariant of the scan of `largest`: starting from a reference `cur`
into `l` that dominates (weakly) every element already visited and strictly
dominates every element before its own position, the final reference points
into `l`, weakly dominates every visited element, and strictly dominates
every element before its position. -/
theorem largestEntryGo_inv {α : Type} [LinearOrder α] (l : List α) :
    ∀ (xs : List α) (j : Nat) (cur : Nat × α),
      l.drop j = xs →
      l[cur.1]? = some cur.2 →
      cur.1 ≤ j →
      (∀ p y, p < j → l[p]? = some y → y ≤ cur.2) →
      (∀ p y, p < cur.1 → l[p]? = some y → y < cur.2) →
      l[(largestEntryGo cur j xs).1]? = some (largestEntryGo cur j xs).2 ∧
      (∀ p y, p < j + xs.length → l[p]? = some y → y ≤ (largestEntryGo cur j xs).2) ∧
      (∀ p y, p < (largestEntryGo cur j xs).1 → l[p]? = some y →
        y < (largestEntryGo cur j xs).2) := by
  intro xs
  induction xs with
  | nil =>
    intro j cur _ hget _ hub hstrict
    refine ⟨hget, ?_, hstrict⟩
    intro p y hp hpy
    exact hub p y (by simpa using hp) hpy
  | cons x t ih =>
    intro j cur hdrop hget hle hub hstrict
    have hjx : l[j]? = some x := by
      have h0 := List.getElem?_drop l j 0
      rw [hdrop] at h0
      simpa using h0.symm
    have hdrop2 : l.drop (j + 1) = t := by
      have h1 : l.drop (j + 1) = (l.drop j).drop 1 := by
        rw [List.drop_drop]
      rw [h1, hdrop]
      rfl
    simp only [largestEntryGo]
    by_cases hcmp : cur.2 < x
    · have hcur : (if cur.2 < x then (j, x) else cur) = (j, x) := if_pos hcmp
      rw [hcur]
      have hub2 : ∀ p y, p < j + 1 → l[p]? = some y → y ≤ (j, x).2 := by
        intro p y hp hpy
        rcases Nat.lt_succ_iff_lt_or_eq.mp hp with hp2 | hp2
        · exact le_of_lt (lt_of_le_of_lt (hub p y hp2 hpy) hcmp)
        · rw [hp2] at hpy
          rw [hjx] at hpy
          injection hpy with h
          exact le_of_eq h.symm
      have hstrict2 : ∀ p y, p < (j, x).1 → l[p]? = some y → y < (j, x).2 := by
        intro p y hp hpy
        exact lt_of_le_of_lt (hub p y hp hpy) hcmp
      have hrec := ih (j + 1) (j, x) hdrop2 hjx (by omega) hub2 hstrict2
      refine ⟨hrec.1, ?_, hrec.2.2⟩
      intro p y hp hpy
      refine hrec.2.1 p y ?_ hpy
      simp only [List.length_cons] at hp
      omega
    · have hcur : (if cur.2 < x then (j, x) else cur) = cur := if_neg hcmp
      rw [hcur]
      have hxle : x ≤ cur.2 := le_of_not_lt hcmp
      have hub2 : ∀ p y, p < j + 1 → l[p]? = some y → y ≤ cur.2 := by
        intro p y hp hpy
        rcases Nat.lt_succ_iff_lt_or_eq.mp hp with hp2 | hp2
        · exact hub p y hp2 hpy
        · rw [hp2] at hpy
          rw [hjx] at hpy
          injection hpy with h
          rw [← h]
          exact hxle
      have hrec := ih (j + 1) cur hdrop2 hget (by omega) hub2 hstrict
      refine ⟨hrec.1, ?_, hrec.2.2⟩
      intro p y hp hpy
      refine hrec.2.1 p y ?_ hpy
      simp only [List.length_cons] at hp
      omega

/-- Specification of `largestEntry` on a non-empty list: the returned
reference points at position `i` of the list, its value weakly dominates
every element of the list, and every element strictly before position `i`
is strictly smaller. -/
theorem largestEntry_spec {α : Type} [LinearOrder α] (l : List α) (h : l ≠ []) :
    ∃ i m, largestEntry l = some (i, m) ∧ l[i]? = some m ∧
      (∀ p y, p < l.length → l[p]? = some y → y ≤ m) ∧
      (∀ p y, p < i → l[p]? = some y → y < m) := by
  cases l with
  | nil => exact absurd rfl h
  | cons x xs =>
    have hinv := largestEntryGo_inv (x :: xs) (x :: xs) 0 (0, x)
      (List.drop_zero _) (by simp) (Nat.le_refl 0)
      (fun p y hp _ => absurd hp (Nat.not_lt_zero p))
      (fun p y hp _ => absurd hp (Nat.not_lt_zero p))
    refine ⟨(largestEntryGo (0, x) 0 (x :: xs)).1, (largestEntryGo (0, x) 0 (x :: xs)).2,
      rfl, hinv.1, ?_, hinv.2.2⟩
    intro p y hp hpy
    exact hinv.2.1 p y (by simpa using hp) hpy

/-- Specification of `largest` on a non-empty list: it returns some element
of the list which weakly dominates every element of the list. -/
theorem largest_spec {α : Type} [LinearOrder α] (l : List α) (h : l ≠ []) :
    ∃ m, largest l = some m ∧ m ∈ l ∧ ∀ y ∈ l, y ≤ m := by
  obtain ⟨i, m, hentry, hget, hub, _⟩ := largestEntry_spec l h
  refine ⟨m, ?_, List.getElem?_mem hget, ?_⟩
  · rw [largest_eq_largestEntry_map, hentry]
    rfl
  · intro y hy
    obtain ⟨p, hp⟩ := List.mem_iff_getElem?.mp hy
    exact hub p y (List.getElem?_eq_some.mp hp).1 hp

/-- In a list sorted by `≤`, the last element dominates every element. -/
theorem sorted_le_getLast? {α : Type} [LinearOrder α] :
    ∀ (s : List α), s.Sorted (· ≤ ·) → ∀ g, s.getLast? = some g → ∀ x ∈ s, x ≤ g := by
  intro s
  induction s with
  | nil =>
    intro _ g hg
    simp at hg
  | cons a t ih =>
    intro hsort g hg x hx
    cases t with
    | nil =>
      simp at hg hx
      rw [hx, hg]
    | cons b u =>
      rw [List.getLast?_cons_cons] at hg
      rcases List.mem_cons.mp hx with h | h
      · rw [h]
        exact List.rel_of_sorted_cons hsort _ (List.mem_of_getLast?_eq_some hg)
      · exact ih hsort.of_cons g hg x h

/-- `referenceSortMax` on a non-empty list returns some element of the list
that weakly dominates every element of the list. -/
theorem referenceSortMax_spec {α : Type} [LinearOrder α] (l : List α) (h : l ≠ []) :
    ∃ g, referenceSortMax l = some g ∧ g ∈ l ∧ ∀ y ∈ l, y ≤ g := by
  have hperm := List.perm_insertionSort (· ≤ ·) l
  have hne : l.insertionSort (· ≤ ·) ≠ [] := by
    intro h0
    apply h
    have hlen := hperm.length_eq
    rw [h0] at hlen
    exact List.length_eq_zero.mp hlen.symm
  refine ⟨(l.insertionSort (· ≤ ·)).getLast hne, List.getLast?_eq_getLast _ hne, ?_, ?_⟩
  · exact hperm.mem_iff.mp (List.getLast_mem hne)
  · intro y hy
    exact sorted_le_getLast? _ (List.sorted_insertionSort _ l) _
      (List.getLast?_eq_getLast _ hne) y (hperm.mem_iff.mpr hy)

/-- On any non-empty list over a linear order, `largest` agrees with the
maximum computed by sorting and taking the last element. -/
theorem largest_eq_referenceSortMax {α : Type} [LinearOrder α] (l : List α) (h : l ≠ []) :
    largest l = referenceSortMax l := by
  obtain ⟨m, hm, hmem, hub⟩ := largest_spec l h
  obtain ⟨g, hgref, hgmem, hgub⟩ := referenceSortMax_spec l h
  rw [hm, hgref]
  exact congrArg some (le_antisymm (hgub m hmem) (hub g hgmem))

/-- C1: for every non-empty sequence of integers, and likewise for every
non-empty sequence of characters under character ordering, the extremum
finder `largest` returns an element equal to the maximum of the sequence as
computed by a reference sort (insertion sort followed by taking the last
element). -/
theorem claimC1_largest_eq_sorted_max :
    (∀ l : List Int, l ≠ [] → largest l = referenceSortMax l) ∧
    (∀ l : List Char, l ≠ [] → largest l = referenceSortMax l) :=
  ⟨fun l h => largest_eq_referenceSortMax l h, fun l h => largest_eq_referenceSortMax l h⟩

/-- Witness for C1 on the repository's own test vectors
`[34, 50, 25, 100, 65]` and `['y', 'm', 'a', 'q']`. -/
theorem claimC1_witness :
    (([(34 : Int), 50, 25, 100, 65] ≠ ([] : List Int)) ∧
      largest [(34 : Int), 50, 25, 100, 65] = referenceSortMax [(34 : Int), 50, 25, 100, 65]) ∧
    ((['y', 'm', 'a', 'q'] ≠ ([] : List Char)) ∧
      largest ['y', 'm', 'a', 'q'] = referenceSortMax ['y', 'm', 'a', 'q']) :=
  ⟨⟨by decide, claimC1_largest_eq_sorted_max.1 _ (by decide)⟩,
   ⟨by decide, claimC1_largest_eq_sorted_max.2 _ (by decide)⟩⟩

/-- C4: for every non-empty sequence, the extremum finder performs a
left-to-right scan updating only on strict comparison, so the reference it
returns points at the earliest-seen occurrence of the maximum: the returned
position `i` holds the returned value `m` (also the value `largest`
returns), `m` weakly dominates every element, and every element strictly
before position `i` is strictly smaller than `m`. -/
theorem claimC4_largest_earliest_max {α : Type} [LinearOrder α] (l : List α) (h : l ≠ []) :
    ∃ i m, largestEntry l = some (i, m) ∧ largest l = some m ∧ l[i]? = some m ∧
      (∀ p y, p < l.length → l[p]? = some y → y ≤ m) ∧
      (∀ p y, p < i → l[p]? = some y → y < m) := by
  obtain ⟨i, m, hentry, hget, hub, hstrict⟩ := largestEntry_spec l h
  refine ⟨i, m, hentry, ?_, hget, hub, hstrict⟩
  rw [largest_eq_largestEntry_map, hentry]
  rfl

/-- Witness for C4 on `[1, 3, 2, 3]`, where the maximum 3 occurs twice and
the scan keeps the occurrence at position 1. -/
theorem claimC4_witness :
    ([(1 : Int), 3, 2, 3] ≠ ([] : List Int)) ∧
    largestEntry [(1 : Int), 3, 2, 3] = some (1, 3) ∧
    (∃ i m, largestEntry [(1 : Int), 3, 2, 3] = some (i, m) ∧
      largest [(1 : Int), 3, 2, 3] = some m ∧ [(1 : Int), 3, 2, 3][i]? = some m ∧
      (∀ p y, p < [(1 : Int), 3, 2, 3].length → [(1 : Int), 3, 2, 3][p]? = some y → y ≤ m) ∧
      (∀ p y, p < i → [(1 : Int), 3, 2, 3][p]? = some y → y < m)) :=
  ⟨by decide, by decide, claimC4_largest_earliest_max [(1 : Int), 3, 2, 3] (by decide)⟩

/-- C5: applied to the empty input sequence, the extremum finder fails and
returns no element: the out-of-bounds indexing `&list[0]` of the source is a
panic, modelled as the single explicit outcome `none`, at every type the
repository instantiates it with. -/
theorem claimC5_largest_empty_fails :
    largest ([] : List Int) = none ∧ largest ([] : List Char) = none ∧
    largest_i32 [] = none ∧ largest_char [] = none :=
  ⟨rfl, rfl, rfl, rfl⟩

/-- C7: for every non-empty sequence, the value returned by the extremum
finder is an element of the input sequence. -/
theorem claimC7_largest_mem {α : Type} [LinearOrder α] (l : List α) (h : l ≠ []) :
    ∃ m, largest l = some m ∧ m ∈ l := by
  obtain ⟨m, hm, hmem, _⟩ := largest_spec l h
  exact ⟨m, hm, hmem⟩

/-- Witness for C7 on `[34, 50, 25, 100, 65]`. -/
theorem claimC7_witness :
    ([(34 : Int), 50, 25, 100, 65] ≠ ([] : List Int)) ∧
    (∃ m, largest [(34 : Int), 50, 25, 100, 65] = some m ∧ m ∈ [(34 : Int), 50, 25, 100, 65]) :=
  ⟨by decide, claimC7_largest_mem _ (by decide)⟩

/-- The monomorphic `largest_i32` computes the same function as the generic
`largest` instantiated at `Int`. -/
theorem largest_i32_eq_largest (l : List Int) : largest_i32 l = largest l := by
  cases l with
  | nil => rfl
  | cons x xs => simp only [largest_i32, largest]

/-- The monomorphic `largest_char` computes the same function as the generic
`largest` instantiated at `Char`. -/
theorem largest_char_eq_largest (l : List Char) : largest_char l = largest l := by
  cases l with
  | nil => rfl
  | cons x xs =>
    simp only [largest_char, largest]
    congr 1
    apply List.foldl_ext
    intro a b _
    by_cases h : a < b <;> simp [h]

/-- C10: for every non-empty slice of `i32` the generic `largest`
instantiated at `i32` returns the same element as the concrete
`largest_i32`, and for every non-empty slice of `char` it returns the same
element as the concrete `largest_char`. -/
theorem claimC10_generic_refines_concrete :
    (∀ l : List Int, l ≠ [] → ∃ m, largest_i32 l = some m ∧ largest l = some m) ∧
    (∀ l : List Char, l ≠ [] → ∃ m, largest_char l = some m ∧ largest l = some m) := by
  constructor
  · intro l h
    obtain ⟨m, hm, _, _⟩ := largest_spec l h
    exact ⟨m, by rw [largest_i32_eq_largest, hm], hm⟩
  · intro l h
    obtain ⟨m, hm, _, _⟩ := largest_spec l h
    exact ⟨m, by rw [largest_char_eq_largest, hm], hm⟩

/-- Witness for C10 on the repository's own test vectors. -/
theorem claimC10_witness :
    (([(34 : Int), 50, 25, 100, 65] ≠ ([] : List Int)) ∧
      (∃ m, largest_i32 [(34 : Int), 50, 25, 100, 65] = some m ∧
        largest [(34 : Int), 50, 25, 100, 65] = some m)) ∧
    ((['y', 'm', 'a', 'q'] ≠ ([] : List Char)) ∧
      (∃ m, largest_char ['y', 'm', 'a', 'q'] = some m ∧
        largest ['y', 'm', 'a', 'q'] = some m)) :=
  ⟨⟨by decide, claimC10_generic_refines_concrete.1 _ (by decide)⟩,
   ⟨by decide, claimC10_generic_refines_concrete.2 _ (by decide)⟩⟩

/-- C2: the selector `longest` returns the span with the greater length
measured in UTF-8 bytes, and when the two lengths are equal it returns the
second argument; `longest "rust" "c++"` is `"rust"` and `longest "ab" "cd"`
is `"cd"`. The last conjunct shows the length is measured in bytes, not
characters: `"héé"` has 3 characters but 5 bytes, so it beats the 4-byte,
4-character `"abcd"`. -/
theorem claimC2_longest_selects_longer :
    (∀ x y : String,
      (strLen y < strLen x → longest x y = x) ∧ (strLen x ≤ strLen y → longest x y = y)) ∧
    longest "rust" "c++" = "rust" ∧ longest "ab" "cd" = "cd" ∧
    longest "héé" "abcd" = "héé" := by
  refine ⟨?_, by decide, by decide, by decide⟩
  intro x y
  constructor
  · intro h
    simp only [longest, gt_iff_lt, if_pos h]
  · intro h
    simp only [longest, gt_iff_lt, if_neg (not_lt.mpr h)]

/-- Witness for C2: both branches of the contract at the spec's example
inputs. -/
theorem claimC2_witness :
    (strLen "c++" < strLen "rust" ∧ longest "rust" "c++" = "rust") ∧
    (strLen "ab" ≤ strLen "cd" ∧ longest "ab" "cd" = "cd") :=
  ⟨⟨by decide, (claimC2_longest_selects_longer.1 "rust" "c++").1 (by decide)⟩,
   ⟨by decide, (claimC2_longest_selects_longer.1 "ab" "cd").2 (by decide)⟩⟩

/-- C3: the word-frequency counter applied to "hello world about world"
returns the mapping sending "hello" to 1, "world" to 2 and "about" to 1
(as an association list in first-seen order, with those exact lookups). -/
theorem claimC3_word_frequencies_example :
    word_frequencies "hello world about world" = [("hello", 1), ("world", 2), ("about", 1)] ∧
    (word_frequencies "hello world about world").lookup "hello" = some 1 ∧
    (word_frequencies "hello world about world").lookup "world" = some 2 ∧
    (word_frequencies "hello world about world").lookup "about" = some 1 := by
  refine ⟨by decide, by decide, by decide, by decide⟩

/-- C8: the word-frequency counter applied to the empty text returns an
empty mapping. -/
theorem claimC8_word_frequencies_empty : word_frequencies "" = [] := by decide

/-- C9: the word- and character-frequency counters are deterministic,
referentially transparent functions of their input: two runs on equal
inputs yield equal maps. -/
theorem claimC9_frequencies_deterministic (t1 t2 : String) (h : t1 = t2) :
    word_frequencies t1 = word_frequencies t2 ∧ char_frequencies t1 = char_frequencies t2 := by
  rw [h]
  exact ⟨rfl, rfl⟩

/-- Witness for C9 on the repository's test text. -/
theorem claimC9_witness :
    ("hello world about world" = "hello world about world") ∧
    (word_frequencies "hello world about world" = word_frequencies "hello world about world" ∧
      char_frequencies "hello world about world" = char_frequencies "hello world about world") :=
  ⟨rfl, claimC9_frequencies_deterministic _ _ rfl⟩

/-- One `bump` step increases the total count stored in the map by exactly
one. -/
theorem countsSum_bump {κ : Type} [DecidableEq κ] :
    ∀ (m : List (κ × Nat)) (k : κ), countsSum (bump m k) = countsSum m + 1 := by
  intro m k
  induction m with
  | nil => rfl
  | cons p rest ih =>
    obtain ⟨q, v⟩ := p
    simp only [bump]
    by_cases h : q = k
    · rw [if_pos h]
      simp only [countsSum, List.map_cons, List.sum_cons]
      omega
    · rw [if_neg h]
      simp only [countsSum, List.map_cons, List.sum_cons] at ih ⊢
      omega

/-- Folding `bump` over a token list adds the number of tokens to the total
count, whatever map the fold starts from. -/
theorem countsSum_foldl_bump {κ : Type} [DecidableEq κ] :
    ∀ (ks : List κ) (m : List (κ × Nat)),
      countsSum (ks.foldl bump m) = countsSum m + ks.length := by
  intro ks
  induction ks with
  | nil =>
    intro m
    simp
  | cons k t ih =>
    intro m
    simp only [List.foldl_cons, List.length_cons]
    rw [ih, countsSum_bump]
    omega

/-- C6: for every input text the counts in the frequency map sum to the
number of whitespace-delimited tokens (and in the character-counting
variant, to the number of characters processed), and this holds after every
step `n` of the single linear pass that populates the initially empty
map. -/
theorem claimC6_counts_sum (text : String) :
    (∀ n : Nat,
      countsSum (((split_whitespace text).take n).foldl bump []) =
        ((split_whitespace text).take n).length) ∧
    countsSum (word_frequencies text) = (split_whitespace text).length ∧
    countsSum (char_frequencies text) = text.data.length := by
  refine ⟨fun n => ?_, ?_, ?_⟩
  · rw [countsSum_foldl_bump]
    simp [countsSum]
  · rw [word_frequencies, countsSum_foldl_bump]
    simp [countsSum]
  · rw [char_frequencies, countsSum_foldl_bump]
    simp [countsSum]

example : largest [(34 : Int), 50, 25, 100, 65] = some 100 := by decide
example : largest ['y', 'm', 'a', 'q'] = some 'y' := by decide
example : largestEntry [(1 : Int), 3, 2, 3] = some (1, 3) := by decide
example : strLen "rust" = 4 ∧ strLen "c++" = 3 := by decide
example : longest "rust" "c++" = "rust" := by decide
example : split_whitespace "hello world about world" =
    ["hello", "world", "about", "world"] := by decide
example : word_frequencies "hello world about world" =
    [("hello", 1), ("world", 2), ("about", 1)] := by decide
example : char_frequencies "rust best" =
    [('r', 1), ('u', 1), ('s', 2), ('t', 2), (' ', 1), ('b', 1), ('e', 1)] := by decide

end RustRef
